import Mathlib

/-!
Verification of `sarif_file.py` (classes `SarifRun`, `SarifFile`,
`SarifFileSet` and module-level helpers) against its natural-language
specification.  Python strings are modelled as Lean `String`s manipulated
through `List Char` (Python string operations are character-based), JSON
scalars that may be either strings or numbers as `PyScalar`, `None`-able
values as `Option`, and raised exceptions as `Except`.
-/

/-- Python `str.strip()` whitespace set (space, tab, newline, return,
vertical tab, form feed). -/
def pyIsSpace (c : Char) : Bool :=
  c = ' ' || c = '\t' || c = '\n' || c = '\r' || c = '\x0b' || c = '\x0c'

/-- Python `str.strip()`. -/
def pyStrip (s : String) : String :=
  String.mk (((s.toList.dropWhile pyIsSpace).reverse.dropWhile pyIsSpace).reverse)

/-- Python `str.upper()` (ASCII letters; the repository only compares
ASCII paths). -/
def pyUpper (s : String) : String :=
  String.mk (s.toList.map Char.toUpper)

/-- `startsW pre hay` models Python `hay.startswith(pre)` on character
lists. -/
def startsW : List Char → List Char → Bool
  | [], _ => true
  | _ :: _, [] => false
  | p :: ps, h :: hs => p = h && startsW ps hs

/-- `hasSub needle hay` models Python `needle in hay` (substring test). -/
def hasSub : List Char → List Char → Bool
  | n, [] => n.isEmpty
  | n, h :: hs => startsW n (h :: hs) || hasSub n hs

/-- Auxiliary scan for `pyRfind`, carrying the current index and the last
index at which the character was seen (`-1` when never seen). -/
def lastIdxAux (c : Char) : List Char → Nat → Int → Int
  | [], _, acc => acc
  | x :: xs, i, acc => lastIdxAux c xs (i + 1) (if x = c then Int.ofNat i else acc)

/-- Python `s.rfind(c)`: index of the last occurrence of `c`, `-1` if
absent. -/
def pyRfind (s : String) (c : Char) : Int :=
  lastIdxAux c s.toList 0 (-1)

/-- Python truthiness of an optional string (`None` and `""` are falsy). -/
def pyTruthyS : Option String → Bool
  | none => false
  | some s => !(s = "")

/-- `_SLASHES` from the source. -/
def _SLASHES : List Char := ['\\', '/']

/-- `SARIF_SEVERITIES` from the source. -/
def SARIF_SEVERITIES : List String := ["error", "warning", "note"]

/-- A JSON scalar as it appears in a Python dict: either a string or an
integer.  `region.startLine` is a JSON number in SARIF, while the default
line used by the code is the string `"1"`. -/
inductive PyScalar where
  | s (v : String)
  | i (v : Int)
deriving DecidableEq, Repr

/-- `true` iff the scalar is a Python `str`. -/
def PyScalar.isStr : PyScalar → Bool
  | .s _ => true
  | .i _ => false

/-- The `region` sub-object of a physical location (only `startLine` is
read by the code). -/
structure Region where
  startLine : Option PyScalar
deriving DecidableEq, Repr

/-- The `address` sub-object of a physical location. -/
structure Address where
  fullyQualifiedName : Option String
deriving DecidableEq, Repr

/-- The `artifactLocation` sub-object of a physical location. -/
structure ArtifactLocation where
  uri : Option String
deriving DecidableEq, Repr

/-- The `physicalLocation` sub-object of a location. -/
structure PhysicalLocation where
  address : Option Address
  artifactLocation : Option ArtifactLocation
  region : Option Region
deriving DecidableEq, Repr

/-- One entry of a `logicalLocations` list. -/
structure LogicalLocation where
  fullyQualifiedName : Option String
deriving DecidableEq, Repr

/-- One entry of a result's `locations` list. -/
structure Location where
  physicalLocation : Option PhysicalLocation
  logicalLocations : Option (List LogicalLocation)
deriving DecidableEq, Repr

/-- A SARIF result object, restricted to the fields the code reads.
`ruleId` and `message.text` are read unconditionally by the code (an
assumed precondition), so they are required fields here. -/
structure SarifResult where
  ruleId : String
  locations : Option (List Location)
  level : Option String
  message_text : String
deriving DecidableEq, Repr

/-- `tool.driver` of a run. -/
structure Driver where
  name : String
deriving DecidableEq, Repr

/-- `tool` of a run. -/
structure Tool where
  driver : Driver
deriving DecidableEq, Repr

/-- The run sub-object of a SARIF document, restricted to the fields the
code reads. -/
structure RunData where
  tool : Tool
  results : List SarifResult
deriving DecidableEq, Repr

/-- The simplified record built by `SarifRun.result_to_record`, with keys
`RECORD_ATTRIBUTES = ["Tool", "Severity", "Code", "Location", "Line"]`.
`Line` keeps the dynamic type the Python dict value has: the string `"1"`
by default, or the raw JSON `startLine` value. -/
structure Record where
  Tool : String
  Location : String
  Line : PyScalar
  Severity : String
  Code : String
deriving DecidableEq, Repr

/-- The `ValueError(f"No location in {error_id} output from {tool_name}")`
raised by `result_to_record`, with the two values interpolated into the
message. -/
structure ExtractionError where
  ruleId : String
  tool_name : String
deriving DecidableEq, Repr

/-- Lines 149-173 of the source: from the `locations` list, compute the
pair `(error_line, file_path)` — the `startLine` lookup with default
`"1"`, and the three-step location fallback chain. -/
def extractLinePath (locations : List Location) : PyScalar × Option String :=
  match locations with
  | [] => (.s "1", none)
  | location :: _ =>
    let physical_location := location.physicalLocation
    let error_line := ((physical_location.bind (·.region)).bind (·.startLine)).getD (.s "1")
    let fp1 := (physical_location.bind (·.address)).bind (·.fullyQualifiedName)
    let fp2 := if pyTruthyS fp1 then fp1 else
      (physical_location.bind (·.artifactLocation)).bind (·.uri)
    let fp3 := if pyTruthyS fp2 then fp2 else
      match location.logicalLocations with
      | some (ll :: _) => ll.fullyQualifiedName
      | _ => fp2
    (error_line, fp3)

/-- Lines 179-187 of the source: strip the first configured prefix that
matches the uppercased path; consume a following path separator if
present. -/
def stripLoop (file_path : String) : List String → String
  | [] => file_path
  | p :: rest =>
    if startsW p.toList (pyUpper file_path).toList then
      let prefixlen := p.toList.length
      if file_path.toList.length > prefixlen ∧ (file_path.toList.getD prefixlen ' ') ∈ _SLASHES then
        String.mk (file_path.toList.drop (prefixlen + 1))
      else
        String.mk (file_path.toList.drop prefixlen)
    else stripLoop file_path rest

/-- Line 177 of the source: `if self._path_prefixes_upper:` — stripping
runs only when the configured list is present and non-empty. -/
def applyStripping (path_prefixes_upper : Option (List String)) (file_path : String) : String :=
  match path_prefixes_upper with
  | some ps => if ps.isEmpty then file_path else stripLoop file_path ps
  | none => file_path

/-- `SarifRun.result_to_record` (lines 137-203): build a `Record` from a
result, raising `ValueError` when no location can be determined. -/
def result_to_record (path_prefixes_upper : Option (List String)) (tool_name : String)
    (result : SarifResult) : Except ExtractionError Record :=
  let error_id := result.ruleId
  let lp := extractLinePath (result.locations.getD [])
  if pyTruthyS lp.2 then
    let file_path := applyStripping path_prefixes_upper (lp.2.getD "")
    .ok { Tool := tool_name
          Location := file_path
          Line := lp.1
          Severity := result.level.getD "warning"
          Code := error_id ++ " " ++ result.message_text }
  else
    .error { ruleId := error_id, tool_name := tool_name }

/-- The state a `SarifRun` instance carries: its immutable `run_data`
plus the two mutable attributes `_path_prefixes_upper` and
`_cached_records`. -/
structure RunState where
  run_data : RunData
  path_prefixes_upper : Option (List String)
  cached_records : Option (List Record)
deriving DecidableEq, Repr

/-- A list comprehension whose element expression may raise: the first
raised error propagates and aborts the whole comprehension. -/
def mapRecords (f : SarifResult → Except ExtractionError Record) :
    List SarifResult → Except ExtractionError (List Record)
  | [] => .ok []
  | r :: rest =>
    match f r with
    | .error e => .error e
    | .ok record =>
      match mapRecords f rest with
      | .error e => .error e
      | .ok records => .ok (record :: records)

/-- The list comprehension in `get_records` (line 128): extract every
result of the run, propagating the first `ValueError`. -/
def computeRecords (s : RunState) : Except ExtractionError (List Record) :=
  mapRecords (result_to_record s.path_prefixes_upper s.run_data.tool.driver.name)
    s.run_data.results

/-- The recompute branch of `get_records`: extract all results and store
them in `_cached_records`. -/
def get_records_fresh (s : RunState) : Except ExtractionError (List Record × RunState) :=
  match computeRecords s with
  | .error e => .error e
  | .ok recs => .ok (recs, { s with cached_records := some recs })

/-- `SarifRun.get_records` (lines 121-129).  Python's
`if not self._cached_records` treats both `None` and `[]` as an absent
cache.  Returns the records together with the successor state. -/
def get_records (s : RunState) : Except ExtractionError (List Record × RunState) :=
  match s.cached_records with
  | some l => if l.isEmpty then get_records_fresh s else .ok (l, s)
  | none => get_records_fresh s

/-- Lines 89-94 of the source: the inner `for (char_pos, char) in
enumerate(record_location)` loop.  `common` is kept when `char_pos`
reaches its length, and truncated to `common[0:char_pos]` at the first
mismatching character. -/
def innerLoop (common : List Char) (r : List Char) (char_pos : Nat) : List Char :=
  match r with
  | [] => common
  | ch :: rest =>
    if char_pos ≥ common.length then common
    else if ch = common.getD char_pos ' ' then innerLoop common rest (char_pos + 1)
    else common.take char_pos

/-- Lines 88-96 of the source: the outer loop over `records[1:]`,
trimming each location and breaking early once the common prefix is
empty. -/
def foldCommon (common : List Char) : List Record → List Char
  | [] => common
  | record :: rest =>
    let c2 := innerLoop common (pyStrip record.Location).toList 0
    if c2.isEmpty then c2 else foldCommon c2 rest

/-- Lines 80-98 of the source: the `autotrim_prefix` computed by
`init_path_prefix_stripping` from the run's (unstripped) records.  One
record: cut at the last path separator (not uppercased by the code).  Two
or more: character-by-character common-prefix fold, uppercased. -/
def autotrimCandidate (records : List Record) : Option String :=
  match records with
  | [] => none
  | record :: rest =>
    if rest.isEmpty then
      let loc := pyStrip record.Location
      let slash_pos := max (pyRfind loc '\\') (pyRfind loc '/')
      if slash_pos > -1 then some (String.mk (loc.toList.take slash_pos.toNat)) else none
    else
      let common := foldCommon (pyStrip record.Location).toList rest
      if common.isEmpty then none else some (pyUpper (String.mk common))

/-- `SarifRun.init_path_prefix_stripping` (lines 68-105).  Explicit
prefixes are trimmed and uppercased; with `autotrim` the candidate is
inferred from the run's current records (which may raise, via
`get_records`) and appended unless an existing prefix already starts with
its uppercased trim; the cache is cleared at the end. -/
def init_path_prefix_stripping (s : RunState) (autotrim : Bool)
    (path_prefixes : Option (List String)) : Except ExtractionError RunState :=
  let prefixes : List String := match path_prefixes with
    | some ps => if ps.isEmpty then [] else ps.map (fun p => pyUpper (pyStrip p))
    | none => []
  if autotrim then
    match get_records s with
    | .error e => .error e
    | .ok (records, s₁) =>
      let cand := autotrimCandidate records
      let prefixes₂ := match cand with
        | some c =>
          if !(c = "") && !(prefixes.any (fun p => startsW (pyUpper (pyStrip c)).toList p.toList)) then
            prefixes ++ [c]
          else prefixes
        | none => prefixes
      .ok { s₁ with
            path_prefixes_upper := if prefixes₂.isEmpty then none else some prefixes₂
            cached_records := none }
  else
    .ok { s with
          path_prefixes_upper := if prefixes.isEmpty then none else some prefixes
          cached_records := none }

/-- `SarifRun.get_result_count_by_severity` (lines 211-219): for each of
the three severities, count the records whose `Severity` string contains
it as a substring (Python `severity in record["Severity"]`). -/
def get_result_count_by_severity (records : List Record) : List (String × Nat) :=
  SARIF_SEVERITIES.map (fun severity =>
    (severity, (records.filter (fun record => hasSub severity.toList record.Severity.toList)).length))

/-- One update of the `code_to_count` dict (Python dicts preserve
insertion order; `code_to_count[code] = code_to_count.get(code, 0) + 1`
updates in place or appends). -/
def bump : List (String × Nat) → String → List (String × Nat)
  | [], c => [(c, 1)]
  | (k, n) :: rest, c => if k = c then (k, n + 1) :: rest else (k, n) :: bump rest c

/-- Lookup in an insertion-ordered association list (Python dict read). -/
def pairsLookup : List (String × Nat) → String → Option Nat
  | [], _ => none
  | (k, n) :: rest, c => if k = c then some n else pairsLookup rest c

/-- Keys of an insertion-ordered association list. -/
def keysOf (l : List (String × Nat)) : List String :=
  l.map Prod.fst

/-- One insertion step of a stable descending-by-count sort, modelling
Python `sorted(..., key=lambda x: x[1], reverse=True)` (which keeps
equal-key elements in their original order). -/
def sInsert (x : String × Nat) : List (String × Nat) → List (String × Nat)
  | [] => [x]
  | y :: ys => if y.2 > x.2 then y :: sInsert x ys else x :: y :: ys

/-- Stable insertion sort, descending by count. -/
def sSortDesc : List (String × Nat) → List (String × Nat)
  | [] => []
  | x :: xs => sInsert x (sSortDesc xs)

/-- Lines 46-50 of the source: build `code_to_count` over the records
with the requested severity. -/
def codeCounts (records : List Record) (severity : String) : List (String × Nat) :=
  records.foldl (fun m record => if record.Severity = severity then bump m record.Code else m) []

/-- `_count_records_by_issue_code` (lines 41-51). -/
def _count_records_by_issue_code (records : List Record) (severity : String) :
    List (String × Nat) :=
  sSortDesc (codeCounts records severity)

/-- `SarifRun.get_issue_code_histogram` (lines 221-226). -/
def get_issue_code_histogram (records : List Record) (severity : String) :
    List (String × Nat) :=
  _count_records_by_issue_code records severity

/-- Does the character list start with a match of `\d{8}T\d{6}Z`
(a fixed-length pattern: 8 ASCII digits, `T`, 6 ASCII digits, `Z`)? -/
def tsMatch (cs : List Char) : Bool :=
  match cs with
  | d1 :: d2 :: d3 :: d4 :: d5 :: d6 :: d7 :: d8 :: t :: h1 :: h2 :: h3 :: h4 :: h5 :: h6 :: z :: _ =>
    [d1, d2, d3, d4, d5, d6, d7, d8].all Char.isDigit && t = 'T' &&
      [h1, h2, h3, h4, h5, h6].all Char.isDigit && z = 'Z'
  | _ => false

/-- Left-to-right non-overlapping scan of `re.findall(DATETIME_REGEX, s)`
for the fixed-length pattern: on a match consume 16 characters, otherwise
advance by one.  `fuel` (initially the string length) only bounds the
recursion; each step consumes at least one character. -/
def findallTs : Nat → List Char → List String
  | 0, _ => []
  | _, [] => []
  | fuel + 1, c :: cs =>
    if tsMatch (c :: cs) then
      String.mk ((c :: cs).take 16) :: findallTs fuel (cs.drop 15)
    else findallTs fuel cs

/-- `re.findall(DATETIME_REGEX, file_name)` (line 289). -/
def re_findall_datetime (s : String) : List String :=
  findallTs s.toList.length s.toList

/-- The `SarifFile` attributes the verified claims read: the file name
(`get_file_name()`, the basename of `abs_file_path`) and the runs list. -/
structure SarifFileM where
  file_name : String
  runs : List RunData
deriving DecidableEq, Repr

/-- The dynamic type of the Python value returned by
`get_filename_timestamp`: `None`, a string, or a list of strings. -/
inductive PyRet where
  | noneV
  | strV (s : String)
  | listV (l : List String)
deriving DecidableEq, Repr

/-- `SarifFile.get_filename_timestamp` (lines 285-290).  Note the source
returns `parsed_date` — the whole `re.findall` list — when exactly one
match is found, despite its `-> str` annotation. -/
def get_filename_timestamp (f : SarifFileM) : PyRet :=
  let parsed_date := re_findall_datetime f.file_name
  if parsed_date.length == 1 then .listV parsed_date else .noneV

/-- `SarifFile.__bool__` (lines 242-246): a file is truthy iff it has at
least one run. -/
def fileBool (f : SarifFileM) : Bool :=
  !f.runs.isEmpty

/-- `SarifFileSet`: the composite of subdirectory sets and direct files. -/
inductive SarifFileSet where
  | mk (subdirs : List SarifFileSet) (files : List SarifFileM)

/-- The `subdirs` attribute. -/
def SarifFileSet.subdirs : SarifFileSet → List SarifFileSet
  | .mk s _ => s

/-- The `files` attribute. -/
def SarifFileSet.files : SarifFileSet → List SarifFileM
  | .mk _ f => f

mutual

/-- `SarifFileSet.__len__` (lines 370-376): recursive sum over subdirs
plus the number of truthy direct files. -/
def fsLen : SarifFileSet → Nat
  | .mk subdirs files => fsLenList subdirs + (files.filter fileBool).length

/-- `sum(len(subdir) for subdir in self.subdirs)`. -/
def fsLenList : List SarifFileSet → Nat
  | [] => 0
  | d :: ds => fsLen d + fsLenList ds

end

/-- `SarifFileSet.__iter__` (lines 378-386): yields each subdirectory's
direct `files` (one level only, unfiltered), then the direct files. -/
def fsIter (s : SarifFileSet) : List SarifFileM :=
  (s.subdirs.map (·.files)).flatten ++ s.files

/-- `SarifFileSet.__getitem__` (lines 388-395): scan the subdirectories'
direct files with a counter, falling back to `self.files[index - i]`
(out-of-range modelled as `none`). -/
def fsGet (s : SarifFileSet) (index : Nat) : Option SarifFileM :=
  let inner := (s.subdirs.map (·.files)).flatten
  match inner[index]? with
  | some f => some f
  | none => s.files[index - inner.length]?

/-! ## Spec-side definitions

These follow the specification's wording, to be compared with the
definitions above that model the source. -/

/-- Spec: "tried in order until one is non-empty" — the first truthy
entry of a list of optional strings. -/
def firstTruthy : List (Option String) → Option String
  | [] => none
  | o :: os => if pyTruthyS o then o else firstTruthy os

/-- The three location sources of a result's first location, in the
order given by the spec: `physicalLocation.address.fullyQualifiedName`,
`physicalLocation.artifactLocation.uri`, first
`logicalLocations[].fullyQualifiedName` (the third is `none` when the
list is absent or empty). -/
def locationSources (result : SarifResult) : List (Option String) :=
  match result.locations.getD [] with
  | [] => []
  | location :: _ =>
    [(location.physicalLocation.bind (·.address)).bind (·.fullyQualifiedName),
     (location.physicalLocation.bind (·.artifactLocation)).bind (·.uri),
     (match location.logicalLocations with
      | some (ll :: _) => ll.fullyQualifiedName
      | _ => none)]

/-- The raw `physicalLocation.region.startLine` of a result's first
location, if any. -/
def startLineOf (result : SarifResult) : Option PyScalar :=
  match result.locations.getD [] with
  | [] => none
  | location :: _ => (location.physicalLocation.bind (·.region)).bind (·.startLine)

/-! ## Concrete inputs used by the claims -/

/-- A result whose only location is the artifact URI `/a/b/c.py`. -/
def c2result : SarifResult :=
  { ruleId := "R1"
    locations := some
      [{ physicalLocation := some
           { address := none
             artifactLocation := some { uri := some "/a/b/c.py" }
             region := none }
         logicalLocations := none }]
    level := none
    message_text := "msg" }

/-- A run holding exactly `c2result`. -/
def c2run : RunData := { tool := { driver := { name := "toolX" } }, results := [c2result] }

/-- The freshly constructed `SarifRun` state for `c2run`. -/
def c2state : RunState := { run_data := c2run, path_prefixes_upper := none, cached_records := none }

/-- The state after `init_path_prefix_stripping(autotrim=True)` on
`c2state`. -/
def c2state_after : RunState :=
  { run_data := c2run, path_prefixes_upper := some ["/a/b"], cached_records := none }

/-- The record extracted from `c2result` with no effective stripping. -/
def c2rec : Record :=
  { Tool := "toolX", Location := "/a/b/c.py", Line := .s "1", Severity := "warning", Code := "R1 msg" }

/-- A result carrying a numeric `startLine` (the usual SARIF case). -/
def c9res : SarifResult :=
  { ruleId := "R9"
    locations := some
      [{ physicalLocation := some
           { address := none
             artifactLocation := some { uri := some "f.java" }
             region := some { startLine := some (.i 5) } }
         logicalLocations := none }]
    level := some "error"
    message_text := "m" }

/-- The record extracted from `c9res`. -/
def c9rec : Record :=
  { Tool := "SpotBugs", Location := "f.java", Line := .i 5, Severity := "error", Code := "R9 m" }

/-- A result with no `locations` entry at all. -/
def c5res : SarifResult :=
  { ruleId := "R5", locations := none, level := none, message_text := "m5" }

/-! ## Helper lemmas -/

/-- The extracted line is the raw `startLine` when present, else `"1"`. -/
theorem extractLinePath_fst (result : SarifResult) :
    (extractLinePath (result.locations.getD [])).1 = (startLineOf result).getD (.s "1") := by
  unfold extractLinePath startLineOf
  cases result.locations.getD [] with
  | nil => rfl
  | cons location rest => rfl

/-- When the extracted path is truthy it is the first truthy location
source. -/
theorem firstTruthy_extract (location : Location) (rest : List Location)
    (ht : pyTruthyS (extractLinePath (location :: rest)).2 = true) :
    firstTruthy
      [(location.physicalLocation.bind (·.address)).bind (·.fullyQualifiedName),
       (location.physicalLocation.bind (·.artifactLocation)).bind (·.uri),
       (match location.logicalLocations with
        | some (ll :: _) => ll.fullyQualifiedName
        | _ => none)] = (extractLinePath (location :: rest)).2 := by
  cases h1 : pyTruthyS ((location.physicalLocation.bind (·.address)).bind (·.fullyQualifiedName)) with
  | true => simp [extractLinePath, firstTruthy, h1]
  | false =>
    cases h2 : pyTruthyS ((location.physicalLocation.bind (·.artifactLocation)).bind (·.uri)) with
    | true => simp [extractLinePath, firstTruthy, h1, h2]
    | false =>
      cases hll : location.logicalLocations with
      | none => exfalso; simp [extractLinePath, h1, h2, hll] at ht
      | some lls =>
        cases lls with
        | nil => exfalso; simp [extractLinePath, h1, h2, hll] at ht
        | cons ll lltail =>
          have ht2 : pyTruthyS ll.fullyQualifiedName = true := by
            simpa [extractLinePath, h1, h2, hll] using ht
          simp [extractLinePath, firstTruthy, h1, h2, hll, ht2]

/-- The extracted path is falsy exactly when all three location sources
are falsy. -/
theorem falsy_extract (location : Location) (rest : List Location) :
    pyTruthyS (extractLinePath (location :: rest)).2 = false ↔
      (pyTruthyS ((location.physicalLocation.bind (·.address)).bind (·.fullyQualifiedName)) = false ∧
       pyTruthyS ((location.physicalLocation.bind (·.artifactLocation)).bind (·.uri)) = false ∧
       pyTruthyS (match location.logicalLocations with
                  | some (ll :: _) => ll.fullyQualifiedName
                  | _ => none) = false) := by
  simp only [extractLinePath]
  cases h1 : pyTruthyS ((location.physicalLocation.bind (·.address)).bind (·.fullyQualifiedName)) with
  | true => simp [h1]
  | false =>
    cases h2 : pyTruthyS ((location.physicalLocation.bind (·.artifactLocation)).bind (·.uri)) with
    | true => simp [h1, h2]
    | false =>
      cases hll : location.logicalLocations with
      | none => simp [h1, h2, hll, show pyTruthyS none = false from rfl]
      | some lls =>
        cases lls with
        | nil => simp [h1, h2, hll, show pyTruthyS none = false from rfl]
        | cons ll lltail => simp [h1, h2, hll]

/-- A failing element makes the whole comprehension fail. -/
theorem mapRecords_error_of_mem (f : SarifResult → Except ExtractionError Record) :
    ∀ l : List SarifResult, (∃ x ∈ l, ∃ e, f x = .error e) →
      ∃ e2, mapRecords f l = .error e2 := by
  intro l
  induction l with
  | nil => rintro ⟨x, hx, _⟩; exact absurd hx (List.not_mem_nil x)
  | cons a t ih =>
    rintro ⟨x, hx, e, he⟩
    rcases List.mem_cons.mp hx with rfl | hxt
    · exact ⟨e, by simp [mapRecords, he]⟩
    · cases hfa : f a with
      | error e2 => exact ⟨e2, by simp [mapRecords, hfa]⟩
      | ok b =>
        obtain ⟨e2, he2⟩ := ih ⟨x, hxt, e, he⟩
        exact ⟨e2, by simp [mapRecords, hfa, he2]⟩

/-- A truthy optional string is `some` of its non-empty content. -/
theorem truthy_some (o : Option String) (h : pyTruthyS o = true) : o = some (o.getD "") := by
  cases o with
  | none => simp [pyTruthyS] at h
  | some s => rfl

/-- After a successful fresh computation, a second `get_records` call
returns the same records and state. -/
theorem second_call_of_fresh {s : RunState} {recs : List Record} {s₁ : RunState}
    (h : get_records_fresh s = .ok (recs, s₁)) : get_records s₁ = .ok (recs, s₁) := by
  unfold get_records_fresh at h
  cases hcr : computeRecords s with
  | error e => rw [hcr] at h; simp at h
  | ok recs2 =>
    rw [hcr] at h
    simp only [Except.ok.injEq, Prod.mk.injEq] at h
    obtain ⟨rfl, rfl⟩ := h
    unfold get_records
    by_cases hr : recs2.isEmpty
    · have hnil : recs2 = [] := by simpa using hr
      subst hnil
      simp only [List.isEmpty_nil, if_true]
      unfold get_records_fresh
      have hsame : computeRecords { s with cached_records := some ([] : List Record) } =
          computeRecords s := rfl
      rw [hsame, hcr]
    · simp [hr]

/-- claim C2: on a run whose single record has location `/a/b/c.py`,
`init_path_prefix_stripping(autotrim=True)` infers the prefix `/a/b`
(the location cut at its last path separator), but the subsequent
`get_records()` returns the record with location still `/a/b/c.py`, not
`c.py`: the single-record branch stores the candidate without
uppercasing, so the case-insensitive `startswith` check in
`result_to_record` never matches it. -/
theorem C2_autotrim_single_record_eval :
    init_path_prefix_stripping c2state true none = .ok c2state_after ∧
    c2state_after.path_prefixes_upper = some ["/a/b"] ∧
    get_records c2state_after =
      .ok ([c2rec], { c2state_after with cached_records := some [c2rec] }) ∧
    c2rec.Location = "/a/b/c.py" ∧
    ¬ c2rec.Location = "c.py" := by
  refine ⟨rfl, rfl, rfl, rfl, by decide⟩

/-- claim C6: on `scan_20211012T110000Z.sarif` the code returns the
one-element list `["20211012T110000Z"]` — not the string
`"20211012T110000Z"` its `-> str` annotation promises (it returns
`parsed_date` instead of `parsed_date[0]`); with two or zero pattern
matches it returns `None` as specified. -/
theorem C6_filename_timestamp_eval :
    get_filename_timestamp { file_name := "scan_20211012T110000Z.sarif", runs := [] } =
      .listV ["20211012T110000Z"] ∧
    get_filename_timestamp
        { file_name := "scan_20211012T110000Z_and_20211013T110001Z.sarif", runs := [] } =
      .noneV ∧
    get_filename_timestamp { file_name := "scan.sarif", runs := [] } = .noneV ∧
    PyRet.listV ["20211012T110000Z"] ≠ PyRet.strV "20211012T110000Z" := by
  refine ⟨rfl, rfl, rfl, by decide⟩

/-- claim C9 (counterexample): a result carrying the usual numeric
`startLine` yields a record whose `Line` is the integer `5`, not a
string — refuting "the Record's Line field is a string". -/
theorem C9_line_not_string_cex :
    result_to_record none "SpotBugs" c9res = .ok c9rec ∧
    c9rec.Line = PyScalar.i 5 ∧
    c9rec.Line.isStr = false := ⟨rfl, rfl, rfl⟩

/-- claim C9 (amended): an extracted record's `Line` is the raw
`startLine` value of the result's first location when present (whatever
JSON type it has, a number in SARIF), and the string `"1"` when the
result omits it. -/
theorem C9_line_default_amended (path_prefixes_upper : Option (List String))
    (tool_name : String) (result : SarifResult) (record : Record)
    (hok : result_to_record path_prefixes_upper tool_name result = .ok record) :
    record.Line = (startLineOf result).getD (.s "1") := by
  rw [← extractLinePath_fst]
  simp only [result_to_record] at hok
  split at hok
  · simp only [Except.ok.injEq] at hok
    rw [← hok]
  · simp at hok

/-- Witness for C9's amended theorem at a concrete input. -/
theorem C9_line_default_amended_witness :
    c9rec.Line = (startLineOf c9res).getD (.s "1") :=
  C9_line_default_amended none "SpotBugs" c9res c9rec rfl

/-- claim C4: for a result with a non-empty `locations` list that
extracts successfully with no stripping configured, the record's
location is the first non-empty source among
`physicalLocation.address.fullyQualifiedName`,
`physicalLocation.artifactLocation.uri` and the first
`logicalLocations[].fullyQualifiedName`. -/
theorem C4_location_fallback_order (tool_name : String) (result : SarifResult) (record : Record)
    (hok : result_to_record none tool_name result = .ok record)
    (hloc : result.locations.getD [] ≠ []) :
    firstTruthy (locationSources result) = some record.Location := by
  cases hlocs : result.locations.getD [] with
  | nil => exact absurd hlocs hloc
  | cons location rest =>
    simp only [result_to_record, hlocs] at hok
    cases ht : pyTruthyS (extractLinePath (location :: rest)).2 with
    | false => rw [ht] at hok; simp at hok
    | true =>
      rw [ht] at hok
      simp only [if_true, Except.ok.injEq] at hok
      have hL : record.Location =
          applyStripping none ((extractLinePath (location :: rest)).2.getD "") := by
        rw [← hok]
      have happ : applyStripping none ((extractLinePath (location :: rest)).2.getD "") =
          (extractLinePath (location :: rest)).2.getD "" := rfl
      unfold locationSources
      rw [hlocs, firstTruthy_extract location rest ht, hL, happ]
      exact truthy_some _ ht

/-- Witness for C4 at a concrete input (the artifact-URI case). -/
theorem C4_location_fallback_order_witness :
    firstTruthy (locationSources c2result) = some c2rec.Location :=
  C4_location_fallback_order "toolX" c2result c2rec rfl (by decide)

/-- claim C5: extraction fails exactly when no location source is
non-empty (in particular when `locations` is absent or empty); the
raised error carries the result's rule id and the tool name; and an
extraction failure for any result aborts `get_records` for the whole
run (when the cache is not set, so extraction actually runs). -/
theorem C5_extraction_error :
    (∀ (path_prefixes_upper : Option (List String)) (tool_name : String)
        (result : SarifResult) (e : ExtractionError),
        result_to_record path_prefixes_upper tool_name result = .error e →
        e = { ruleId := result.ruleId, tool_name := tool_name }) ∧
    (∀ (path_prefixes_upper : Option (List String)) (tool_name : String)
        (result : SarifResult),
        (∃ e, result_to_record path_prefixes_upper tool_name result = .error e) ↔
        ∀ o ∈ locationSources result, pyTruthyS o = false) ∧
    (∀ s : RunState,
        (s.cached_records = none ∨ s.cached_records = some []) →
        (∃ result ∈ s.run_data.results, ∃ e,
            result_to_record s.path_prefixes_upper s.run_data.tool.driver.name result =
              .error e) →
        ∃ e, get_records s = .error e) := by
  refine ⟨?_, ?_, ?_⟩
  · intro ps tool result e h
    simp only [result_to_record] at h
    split at h
    · simp at h
    · simp only [Except.error.injEq] at h
      exact h.symm
  · intro ps tool result
    constructor
    · rintro ⟨e, he⟩ o ho
      simp only [result_to_record] at he
      split at he
      · simp at he
      · rename_i hcond
        have hfalse : pyTruthyS (extractLinePath (result.locations.getD [])).2 = false := by
          simpa using hcond
        cases hlocs : result.locations.getD [] with
        | nil => simp [locationSources, hlocs] at ho
        | cons location rest =>
          rw [hlocs] at hfalse
          obtain ⟨h1, h2, h3⟩ := (falsy_extract location rest).mp hfalse
          simp only [locationSources, hlocs, List.mem_cons, List.mem_singleton] at ho
          rcases ho with rfl | rfl | rfl | hfalse2
          · exact h1
          · exact h2
          · exact h3
          · simp at hfalse2
    · intro hall
      refine ⟨{ ruleId := result.ruleId, tool_name := tool }, ?_⟩
      simp only [result_to_record]
      have hfalse : pyTruthyS (extractLinePath (result.locations.getD [])).2 = false := by
        cases hlocs : result.locations.getD [] with
        | nil => rfl
        | cons location rest =>
          refine (falsy_extract location rest).mpr ⟨?_, ?_, ?_⟩ <;>
            · apply hall
              simp [locationSources, hlocs]
      rw [hfalse]
      simp
  · intro s hcache hbad
    obtain ⟨e2, he2⟩ := mapRecords_error_of_mem _ s.run_data.results hbad
    have hfresh : get_records_fresh s = .error e2 := by
      unfold get_records_fresh computeRecords
      rw [he2]
    refine ⟨e2, ?_⟩
    unfold get_records
    rcases hcache with hc | hc <;> rw [hc] <;> simpa using hfresh

/-- Witness for C5 at a concrete input: a result without `locations`
fails to extract. -/
theorem C5_extraction_error_witness :
    ∃ e, result_to_record none "toolX" c5res = .error e :=
  (C5_extraction_error.2.1 none "toolX" c5res).mpr (by decide)

/-- claim C10: `get_records` is idempotent — a second call from the
state the first call returned yields the same records and state — and
`init_path_prefix_stripping` clears the cache, so the next
`get_records` recomputes the records afresh under the newly stored
prefix configuration. -/
theorem C10_cache_behaviour :
    (∀ (s : RunState) (recs : List Record) (s₁ : RunState),
        get_records s = .ok (recs, s₁) → get_records s₁ = .ok (recs, s₁)) ∧
    (∀ (s : RunState) (autotrim : Bool) (path_prefixes : Option (List String)) (s₂ : RunState),
        init_path_prefix_stripping s autotrim path_prefixes = .ok s₂ →
        s₂.cached_records = none ∧ get_records s₂ = get_records_fresh s₂) := by
  constructor
  · intro s recs s₁ h
    unfold get_records at h
    cases hc : s.cached_records with
    | none =>
      simp only [hc] at h
      exact second_call_of_fresh h
    | some l =>
      simp only [hc] at h
      by_cases hl : l.isEmpty
      · rw [if_pos hl] at h
        exact second_call_of_fresh h
      · rw [if_neg hl] at h
        simp only [Except.ok.injEq, Prod.mk.injEq] at h
        obtain ⟨rfl, rfl⟩ := h
        simp [get_records, hc, hl]
  · intro s autotrim path_prefixes s₂ h
    have hnone : s₂.cached_records = none := by
      unfold init_path_prefix_stripping at h
      by_cases ha : autotrim
      · rw [if_pos ha] at h
        cases hg : get_records s with
        | error e => rw [hg] at h; simp at h
        | ok p =>
          rw [hg] at h
          simp only [Except.ok.injEq] at h
          rw [← h]
      · rw [if_neg ha] at h
        simp only [Except.ok.injEq] at h
        rw [← h]
    refine ⟨hnone, ?_⟩
    simp only [get_records, hnone]

/-- Witness for C10 at a concrete input: the second `get_records` call
on `c2run` returns the cached records unchanged. -/
theorem C10_cache_behaviour_witness :
    get_records { run_data := c2run, path_prefixes_upper := none, cached_records := some [c2rec] } =
      .ok ([c2rec],
        { run_data := c2run, path_prefixes_upper := none, cached_records := some [c2rec] }) :=
  C10_cache_behaviour.1 c2state [c2rec]
    { run_data := c2run, path_prefixes_upper := none, cached_records := some [c2rec] } rfl

/-- `startsW` is the "is a leading segment of" relation. -/
theorem startsW_iff (n : List Char) : ∀ h : List Char,
    startsW n h = true ↔ ∃ t, h = n ++ t := by
  induction n with
  | nil => intro h; simp [startsW]
  | cons a as ih =>
    intro h
    cases h with
    | nil => simp [startsW]
    | cons b bs =>
      simp only [startsW, Bool.and_eq_true, decide_eq_true_eq, ih, List.cons_append,
        List.cons.injEq]
      constructor
      · rintro ⟨rfl, t, rfl⟩
        exact ⟨t, rfl, rfl⟩
      · rintro ⟨t, rfl, rfl⟩
        exact ⟨rfl, t, rfl⟩

/-- `hasSub` is the substring relation: Python `needle in hay`. -/
theorem hasSub_iff (n : List Char) : ∀ h : List Char,
    hasSub n h = true ↔ ∃ p t, h = p ++ n ++ t := by
  intro h
  induction h with
  | nil =>
    simp only [hasSub, List.isEmpty_iff]
    constructor
    · rintro rfl
      exact ⟨[], [], rfl⟩
    · rintro ⟨p, t, hpt⟩
      rcases List.append_eq_nil.mp (List.append_eq_nil.mp hpt.symm).1 with ⟨-, hn⟩
      exact hn
  | cons c hs ih =>
    simp only [hasSub, Bool.or_eq_true, ih, startsW_iff]
    constructor
    · rintro (⟨t, ht⟩ | ⟨p, t, hpt⟩)
      · exact ⟨[], t, by simp [ht]⟩
      · exact ⟨c :: p, t, by simp [hpt]⟩
    · rintro ⟨p, t, hpt⟩
      cases p with
      | nil => exact Or.inl ⟨t, by simpa using hpt⟩
      | cons pc ptl =>
        simp only [List.cons_append, List.cons.injEq] at hpt
        exact Or.inr ⟨ptl, t, hpt.2⟩

/-- Records with severities `error`, `error`, `warning`. -/
def c7recs : List Record :=
  [{ Tool := "t", Location := "l1", Line := .s "1", Severity := "error", Code := "E1 m" },
   { Tool := "t", Location := "l2", Line := .s "1", Severity := "error", Code := "E1 m" },
   { Tool := "t", Location := "l3", Line := .s "1", Severity := "warning", Code := "W1 m" }]

/-- claim C7: `get_result_count_by_severity` maps each of `error`,
`warning`, `note` (in that order) to the number of records whose
`Severity` string contains it as a substring (`hasSub` being exactly the
substring relation), and on 2 error / 1 warning / 0 note records it
returns `{"error": 2, "warning": 1, "note": 0}`. -/
theorem C7_result_count_by_severity (records : List Record) :
    (∀ severity count, (severity, count) ∈ get_result_count_by_severity records →
        count = (records.filter
          (fun record => hasSub severity.toList record.Severity.toList)).length) ∧
    keysOf (get_result_count_by_severity records) = SARIF_SEVERITIES ∧
    (∀ n h, hasSub n h = true ↔ ∃ p t, h = p ++ n ++ t) ∧
    get_result_count_by_severity c7recs = [("error", 2), ("warning", 1), ("note", 0)] := by
  refine ⟨?_, rfl, hasSub_iff, rfl⟩
  intro severity count hmem
  simp only [get_result_count_by_severity, SARIF_SEVERITIES, List.map_cons, List.map_nil,
    List.mem_cons, List.not_mem_nil, or_false, Prod.mk.injEq] at hmem
  rcases hmem with ⟨rfl, rfl⟩ | ⟨rfl, rfl⟩ | ⟨rfl, rfl⟩ <;> rfl

/-- Witness for C7 at the concrete record list from the spec. -/
theorem C7_result_count_by_severity_witness :
    get_result_count_by_severity c7recs = [("error", 2), ("warning", 1), ("note", 0)] :=
  (C7_result_count_by_severity c7recs).2.2.2

/-- Spec-side: number of records with exactly the given severity and
code. -/
def countMatching (records : List Record) (severity code : String) : Nat :=
  (records.filter (fun record => record.Severity == severity && record.Code == code)).length

/-- Spec-side: the codes of the records with exactly the given severity,
in record order. -/
def matchingCodes (records : List Record) (severity : String) : List String :=
  (records.filter (fun record => record.Severity == severity)).map (·.Code)

/-- Spec-side: first-encounter deduplication (the key order of an
insertion-ordered dict). -/
def firstSeenAux (seen : List String) : List String → List String
  | [] => []
  | c :: cs => if c ∈ seen then firstSeenAux seen cs else c :: firstSeenAux (c :: seen) cs

/-- How `bump` changes a lookup: the bumped key gains one, others are
unchanged. -/
theorem pairsLookup_bump (m : List (String × Nat)) (c₀ c : String) :
    pairsLookup (bump m c₀) c =
      if c = c₀ then some ((pairsLookup m c₀).getD 0 + 1) else pairsLookup m c := by
  induction m with
  | nil =>
    by_cases h : c = c₀
    · subst h; simp [bump, pairsLookup]
    · simp [bump, pairsLookup, h, Ne.symm h]
  | cons kn rest ih =>
    obtain ⟨k, n⟩ := kn
    by_cases hk : k = c₀
    · subst hk
      by_cases hc : k = c
      · subst hc; simp [bump, pairsLookup]
      · simp [bump, pairsLookup, hc, Ne.symm hc]
    · by_cases hc : k = c
      · subst hc
        simp [bump, pairsLookup, hk, Ne.symm hk]
      · simp [bump, pairsLookup, hk, hc, ih]

/-- How `bump` changes the key list: existing keys stay in place, a new
key is appended. -/
theorem keysOf_bump (m : List (String × Nat)) (c : String) :
    keysOf (bump m c) = if c ∈ keysOf m then keysOf m else keysOf m ++ [c] := by
  induction m with
  | nil => simp [bump, keysOf]
  | cons kn rest ih =>
    obtain ⟨k, n⟩ := kn
    by_cases hk : k = c
    · subst hk; simp [bump, keysOf]
    · have hck : ¬ c = k := Ne.symm hk
      simp only [bump, if_neg hk, keysOf, List.map_cons]
      simp only [keysOf] at ih
      rw [ih]
      by_cases hmem : c ∈ List.map Prod.fst rest
      · simp [hmem, hck]
      · simp [hmem, hck]

/-- A key is absent from the dict exactly when its lookup is `none`. -/
theorem pairsLookup_none_iff (m : List (String × Nat)) (c : String) :
    pairsLookup m c = none ↔ c ∉ keysOf m := by
  induction m with
  | nil => simp [pairsLookup, keysOf]
  | cons kn rest ih =>
    obtain ⟨k, n⟩ := kn
    by_cases hk : k = c
    · subst hk; simp [pairsLookup, keysOf]
    · have : ¬ c = k := fun hh => hk hh.symm
      simp [pairsLookup, keysOf, hk, this, ih]

/-- `bump` keeps the keys distinct. -/
theorem nodup_keys_bump (m : List (String × Nat)) (c : String)
    (h : (keysOf m).Nodup) : (keysOf (bump m c)).Nodup := by
  rw [keysOf_bump]
  by_cases hmem : c ∈ keysOf m
  · simpa [hmem] using h
  · simp [hmem, List.nodup_append, h]

/-- In a dict with distinct keys, every member pair is found by lookup. -/
theorem pairsLookup_of_mem_nodup (p : String × Nat) :
    ∀ m : List (String × Nat), p ∈ m → (keysOf m).Nodup → pairsLookup m p.1 = some p.2 := by
  intro m
  induction m with
  | nil => intro h; exact absurd h (List.not_mem_nil p)
  | cons kn rest ih =>
    intro hmem hnd
    obtain ⟨k, n⟩ := kn
    rcases List.mem_cons.mp hmem with rfl | htail
    · simp [pairsLookup]
    · have hk : k ≠ p.1 := by
        intro hh
        have hpk : p.1 ∈ keysOf rest := List.mem_map_of_mem Prod.fst htail
        rw [hh] at hnd
        exact (List.nodup_cons.mp (by simpa [keysOf] using hnd)).1 hpk
      have hrest : (keysOf rest).Nodup := (List.nodup_cons.mp (by simpa [keysOf] using hnd)).2
      simp [pairsLookup, hk, ih htail hrest]

/-- How a lookup result combines with additional occurrences. -/
def combineCount (o : Option Nat) (k : Nat) : Option Nat :=
  match o with
  | some v => some (v + k)
  | none => if k = 0 then none else some k

/-- Adding zero occurrences changes nothing. -/
theorem combineCount_zero (o : Option Nat) : combineCount o 0 = o := by
  cases o <;> simp [combineCount]

/-- Bumping once then adding `k` equals adding `k + 1`. -/
theorem combineCount_succ (o : Option Nat) (k : Nat) :
    combineCount (some (o.getD 0 + 1)) k = combineCount o (k + 1) := by
  cases o <;> simp [combineCount] <;> omega

/-- Lookup after folding the `code_to_count` accumulation over a record
list: each matching record adds one to its code's count. -/
theorem pairsLookup_foldl (severity c : String) :
    ∀ (l : List Record) (m : List (String × Nat)),
      pairsLookup
        (l.foldl (fun m record => if record.Severity = severity then bump m record.Code else m) m)
        c =
      combineCount (pairsLookup m c) (countMatching l severity c) := by
  intro l
  induction l with
  | nil => intro m; simp [countMatching, combineCount_zero]
  | cons r rest ih =>
    intro m
    by_cases hsev : r.Severity = severity
    · by_cases hcode : r.Code = c
      · have hcnt : countMatching (r :: rest) severity c = countMatching rest severity c + 1 := by
          simp [countMatching, List.filter_cons, hsev, hcode]
        rw [hcnt]
        simp only [List.foldl_cons, if_pos hsev]
        rw [ih (bump m r.Code), hcode, pairsLookup_bump]
        simp [combineCount_succ]
      · have hcnt : countMatching (r :: rest) severity c = countMatching rest severity c := by
          simp [countMatching, List.filter_cons, hsev, hcode]
        rw [hcnt]
        simp only [List.foldl_cons, if_pos hsev]
        rw [ih (bump m r.Code), pairsLookup_bump]
        simp [Ne.symm hcode]
    · have hcnt : countMatching (r :: rest) severity c = countMatching rest severity c := by
        simp [countMatching, List.filter_cons, hsev]
      rw [hcnt]
      simp only [List.foldl_cons, if_neg hsev]
      exact ih m

/-- `firstSeenAux` only depends on the membership of `seen`. -/
theorem firstSeenAux_congr :
    ∀ (l : List String) (s₁ s₂ : List String), (∀ x, x ∈ s₁ ↔ x ∈ s₂) →
      firstSeenAux s₁ l = firstSeenAux s₂ l := by
  intro l
  induction l with
  | nil => intro s₁ s₂ _; rfl
  | cons c cs ih =>
    intro s₁ s₂ hs
    simp only [firstSeenAux]
    by_cases hc : c ∈ s₁
    · rw [if_pos hc, if_pos ((hs c).mp hc)]
      exact ih s₁ s₂ hs
    · rw [if_neg hc, if_neg (fun hh => hc ((hs c).mpr hh))]
      refine congrArg (c :: ·) (ih _ _ ?_)
      intro x
      simp [hs x]

/-- Keys of the folded `code_to_count` dict: the accumulator's keys
followed by the not-yet-seen matching codes in first-encounter order. -/
theorem keysOf_foldl (severity : String) :
    ∀ (l : List Record) (m : List (String × Nat)),
      keysOf
        (l.foldl (fun m record => if record.Severity = severity then bump m record.Code else m) m) =
      keysOf m ++ firstSeenAux (keysOf m) (matchingCodes l severity) := by
  intro l
  induction l with
  | nil => intro m; simp [matchingCodes, firstSeenAux]
  | cons r rest ih =>
    intro m
    by_cases hsev : r.Severity = severity
    · have hcodes : matchingCodes (r :: rest) severity = r.Code :: matchingCodes rest severity := by
        simp [matchingCodes, List.filter_cons, hsev]
      rw [hcodes]
      simp only [List.foldl_cons, if_pos hsev]
      rw [ih (bump m r.Code), keysOf_bump]
      by_cases hmem : r.Code ∈ keysOf m
      · rw [if_pos hmem]
        simp only [firstSeenAux, if_pos hmem]
      · rw [if_neg hmem]
        simp only [firstSeenAux, if_neg hmem]
        rw [firstSeenAux_congr (matchingCodes rest severity) (keysOf m ++ [r.Code])
          (r.Code :: keysOf m) (by intro x; simp [or_comm])]
        simp
    · have hcodes : matchingCodes (r :: rest) severity = matchingCodes rest severity := by
        simp [matchingCodes, List.filter_cons, hsev]
      rw [hcodes]
      simp only [List.foldl_cons, if_neg hsev]
      exact ih m

/-- The folded dict keeps its keys distinct. -/
theorem nodup_keys_foldl (severity : String) :
    ∀ (l : List Record) (m : List (String × Nat)), (keysOf m).Nodup →
      (keysOf
        (l.foldl (fun m record => if record.Severity = severity then bump m record.Code else m) m)).Nodup := by
  intro l
  induction l with
  | nil => intro m h; exact h
  | cons r rest ih =>
    intro m h
    simp only [List.foldl_cons]
    by_cases hsev : r.Severity = severity
    · rw [if_pos hsev]
      exact ih _ (nodup_keys_bump m r.Code h)
    · rw [if_neg hsev]
      exact ih m h

/-- `sInsert` inserts its element, up to permutation. -/
theorem sInsert_perm (x : String × Nat) :
    ∀ l : List (String × Nat), List.Perm (sInsert x l) (x :: l) := by
  intro l
  induction l with
  | nil => simp [sInsert]
  | cons y ys ih =>
    simp only [sInsert]
    by_cases h : y.2 > x.2
    · rw [if_pos h]
      exact (ih.cons y).trans (List.Perm.swap x y ys)
    · rw [if_neg h]

/-- The sort permutes its input. -/
theorem sSortDesc_perm : ∀ l : List (String × Nat), List.Perm (sSortDesc l) l := by
  intro l
  induction l with
  | nil => simp [sSortDesc]
  | cons x xs ih => exact (sInsert_perm x (sSortDesc xs)).trans (ih.cons x)

/-- `sInsert` preserves descending order. -/
theorem sInsert_pairwise (x : String × Nat) :
    ∀ l : List (String × Nat), List.Pairwise (fun a b => b.2 ≤ a.2) l →
      List.Pairwise (fun a b => b.2 ≤ a.2) (sInsert x l) := by
  intro l
  induction l with
  | nil => intro _; simp [sInsert]
  | cons y ys ih =>
    intro h
    obtain ⟨hy, hys⟩ := List.pairwise_cons.mp h
    simp only [sInsert]
    by_cases hgt : y.2 > x.2
    · rw [if_pos hgt]
      refine List.pairwise_cons.mpr ⟨?_, ih hys⟩
      intro z hz
      have hz2 : z ∈ x :: ys := (sInsert_perm x ys).mem_iff.mp hz
      rcases List.mem_cons.mp hz2 with rfl | hzys
      · exact Nat.le_of_lt hgt
      · exact hy z hzys
    · rw [if_neg hgt]
      refine List.pairwise_cons.mpr ⟨?_, h⟩
      intro z hz
      rcases List.mem_cons.mp hz with rfl | hzys
      · exact Nat.le_of_not_lt hgt
      · exact Nat.le_trans (hy z hzys) (Nat.le_of_not_lt hgt)

/-- The sort is descending by count. -/
theorem sSortDesc_pairwise :
    ∀ l : List (String × Nat), List.Pairwise (fun a b => b.2 ≤ a.2) (sSortDesc l) := by
  intro l
  induction l with
  | nil => simp [sSortDesc]
  | cons x xs ih => exact sInsert_pairwise x (sSortDesc xs) ih

/-- Stability of the insertion step: restricting to any fixed count
value, `sInsert` puts the new element first iff it has that value, and
disturbs nothing else. -/
theorem sInsert_filter (x : String × Nat) (k : Nat) :
    ∀ l : List (String × Nat),
      (sInsert x l).filter (fun p => p.2 == k) =
        if x.2 = k then x :: l.filter (fun p => p.2 == k)
        else l.filter (fun p => p.2 == k) := by
  intro l
  induction l with
  | nil =>
    by_cases hx : x.2 = k
    · simp [sInsert, List.filter_cons, hx]
    · simp [sInsert, List.filter_cons, hx]
  | cons y ys ih =>
    simp only [sInsert]
    by_cases hgt : y.2 > x.2
    · rw [if_pos hgt]
      by_cases hx : x.2 = k
      · have hy : ¬ y.2 = k := by omega
        rw [if_pos hx] at ih ⊢
        simp [List.filter_cons, hy, ih]
      · rw [if_neg hx] at ih ⊢
        simp [List.filter_cons, ih]
    · rw [if_neg hgt]
      by_cases hx : x.2 = k
      · rw [if_pos hx]
        simp [List.filter_cons, hx]
      · rw [if_neg hx]
        simp [List.filter_cons, hx]

/-- Stability of the sort: for each fixed count value, the sorted list
keeps those entries in their original relative order. -/
theorem sSortDesc_filter (k : Nat) :
    ∀ l : List (String × Nat),
      (sSortDesc l).filter (fun p => p.2 == k) = l.filter (fun p => p.2 == k) := by
  intro l
  induction l with
  | nil => rfl
  | cons x xs ih =>
    simp only [sSortDesc]
    rw [sInsert_filter x k (sSortDesc xs), ih]
    by_cases hx : x.2 = k
    · rw [if_pos hx]
      simp [List.filter_cons, hx]
    · rw [if_neg hx]
      simp [List.filter_cons, hx]

/-- Records with codes `E1`, `E1`, `E2`, all of severity `error`. -/
def c8recs : List Record :=
  [{ Tool := "t", Location := "l1", Line := .s "1", Severity := "error", Code := "E1" },
   { Tool := "t", Location := "l2", Line := .s "1", Severity := "error", Code := "E1" },
   { Tool := "t", Location := "l3", Line := .s "1", Severity := "error", Code := "E2" }]

/-- claim C8: the histogram has one `(code, count)` pair per distinct
code among the records whose severity equals the argument exactly (keys
distinct, each count the exact number of such records, every occurring
code present); it is sorted descending by count; ties keep the
first-encountered order (for every count value `k`, the entries with
count `k` appear exactly as in the insertion-ordered tally, whose keys
are the matching codes deduplicated in first-encounter order); and on
codes `[E1, E1, E2]` of severity `error` it is `[(E1, 2), (E2, 1)]`. -/
theorem C8_issue_code_histogram (records : List Record) (severity : String) :
    (∀ p ∈ get_issue_code_histogram records severity,
        p.2 = countMatching records severity p.1 ∧ p.2 ≠ 0) ∧
    (∀ c, countMatching records severity c ≠ 0 →
        c ∈ keysOf (get_issue_code_histogram records severity)) ∧
    (keysOf (get_issue_code_histogram records severity)).Nodup ∧
    List.Pairwise (fun a b => b.2 ≤ a.2) (get_issue_code_histogram records severity) ∧
    (∀ k, (get_issue_code_histogram records severity).filter (fun p => p.2 == k) =
        (codeCounts records severity).filter (fun p => p.2 == k)) ∧
    keysOf (codeCounts records severity) = firstSeenAux [] (matchingCodes records severity) ∧
    get_issue_code_histogram c8recs "error" = [("E1", 2), ("E2", 1)] := by
  have hhist : get_issue_code_histogram records severity =
      sSortDesc (codeCounts records severity) := rfl
  have hnodupcc : (keysOf (codeCounts records severity)).Nodup :=
    nodup_keys_foldl severity records [] (by simp [keysOf])
  have hlook : ∀ c, pairsLookup (codeCounts records severity) c =
      combineCount none (countMatching records severity c) := by
    intro c
    exact pairsLookup_foldl severity c records []
  have hkeysperm : List.Perm (keysOf (get_issue_code_histogram records severity))
      (keysOf (codeCounts records severity)) := by
    rw [hhist]
    exact (sSortDesc_perm (codeCounts records severity)).map Prod.fst
  refine ⟨?_, ?_, ?_, ?_, ?_, ?_, rfl⟩
  · intro p hp
    rw [hhist] at hp
    have hpcc : p ∈ codeCounts records severity :=
      (sSortDesc_perm (codeCounts records severity)).mem_iff.mp hp
    have hv := (hlook p.1).symm.trans (pairsLookup_of_mem_nodup p _ hpcc hnodupcc)
    by_cases hc : countMatching records severity p.1 = 0
    · rw [hc] at hv
      simp [combineCount] at hv
    · rw [show combineCount none (countMatching records severity p.1) =
          some (countMatching records severity p.1) by simp [combineCount, hc]] at hv
      have heq : countMatching records severity p.1 = p.2 := Option.some.inj hv
      exact ⟨heq.symm, heq ▸ hc⟩
  · intro c hc
    have hne : pairsLookup (codeCounts records severity) c ≠ none := by
      rw [hlook c]
      simp [combineCount, hc]
    have hmem : c ∈ keysOf (codeCounts records severity) := by
      by_contra hnm
      exact hne ((pairsLookup_none_iff _ c).mpr hnm)
    exact hkeysperm.mem_iff.mpr hmem
  · exact hkeysperm.nodup_iff.mpr hnodupcc
  · rw [hhist]
    exact sSortDesc_pairwise (codeCounts records severity)
  · intro k
    rw [hhist]
    exact sSortDesc_filter k (codeCounts records severity)
  · have hk := keysOf_foldl severity records []
    simpa [keysOf] using hk

/-- Witness for C8 at the concrete record list from the spec. -/
theorem C8_issue_code_histogram_witness :
    get_issue_code_histogram c8recs "error" = [("E1", 2), ("E2", 1)] :=
  (C8_issue_code_histogram c8recs "error").2.2.2.2.2.2

/-- Parallel-walk reformulation of the inner character loop: walk the
running common prefix and the record location together; keep the rest of
the common prefix when the location runs out first, cut the common
prefix when it runs out first or at the first mismatch. -/
def stepGo : List Char → List Char → List Char
  | common, [] => common
  | [], _ :: _ => []
  | c :: cs, x :: xs => if x = c then c :: stepGo cs xs else []

/-- Spec-side: the longest common character-by-character prefix of two
character lists. -/
def specLcp : List Char → List Char → List Char
  | a :: as, b :: bs => if a = b then a :: specLcp as bs else []
  | _, _ => []

/-- `a` is a proper leading segment of `b`. -/
def strictLead (a b : List Char) : Prop :=
  startsW a b = true ∧ a.length < b.length

instance strictLead.decidable (a b : List Char) : Decidable (strictLead a b) :=
  inferInstanceAs (Decidable (startsW a b = true ∧ a.length < b.length))

/-- `startsW` is reflexive. -/
theorem startsW_refl : ∀ a : List Char, startsW a a = true := by
  intro a
  induction a with
  | nil => rfl
  | cons c cs ih => simp [startsW, ih]

/-- A leading segment is no longer than the whole. -/
theorem startsW_length : ∀ a b : List Char, startsW a b = true → a.length ≤ b.length := by
  intro a
  induction a with
  | nil => intro b _; simp
  | cons c cs ih =>
    intro b h
    cases b with
    | nil => simp [startsW] at h
    | cons d ds =>
      simp only [startsW, Bool.and_eq_true] at h
      simpa using Nat.succ_le_succ (ih ds h.2)

/-- `startsW` is transitive. -/
theorem startsW_trans : ∀ a b c : List Char,
    startsW a b = true → startsW b c = true → startsW a c = true := by
  intro a
  induction a with
  | nil => intro b c _ _; rfl
  | cons x xs ih =>
    intro b c hab hbc
    cases b with
    | nil => simp [startsW] at hab
    | cons y ys =>
      cases c with
      | nil => simp [startsW] at hbc
      | cons z zs =>
        simp only [startsW, Bool.and_eq_true, decide_eq_true_eq] at hab hbc ⊢
        exact ⟨hab.1.trans hbc.1, ih ys zs hab.2 hbc.2⟩

/-- The common prefix leads its first argument. -/
theorem specLcp_startsW_left : ∀ a b : List Char, startsW (specLcp a b) a = true := by
  intro a
  induction a with
  | nil => intro b; cases b <;> rfl
  | cons c cs ih =>
    intro b
    cases b with
    | nil => rfl
    | cons d ds =>
      simp only [specLcp]
      by_cases h : c = d
      · rw [if_pos h]
        simp [startsW, ih ds]
      · rw [if_neg h]
        rfl

/-- The common prefix leads its second argument. -/
theorem specLcp_startsW_right : ∀ a b : List Char, startsW (specLcp a b) b = true := by
  intro a
  induction a with
  | nil => intro b; cases b <;> rfl
  | cons c cs ih =>
    intro b
    cases b with
    | nil => rfl
    | cons d ds =>
      simp only [specLcp]
      by_cases h : c = d
      · rw [if_pos h, h]
        simp [startsW, ih ds]
      · rw [if_neg h]
        rfl

/-- The indexed inner loop equals the parallel walk on the rest of the
common prefix, with the already-checked front re-attached. -/
theorem innerLoop_eq_stepGo : ∀ (r common : List Char) (k : Nat),
    innerLoop common r k = common.take k ++ stepGo (common.drop k) r := by
  intro r
  induction r with
  | nil =>
    intro common k
    simp [innerLoop, stepGo]
  | cons ch rest ih =>
    intro common k
    simp only [innerLoop]
    by_cases hk : k ≥ common.length
    · rw [if_pos hk]
      rw [List.drop_eq_nil_of_le hk]
      simp [stepGo, List.take_of_length_le hk]
    · rw [if_neg hk]
      push_neg at hk
      have hdrop : common.drop k = common[k] :: common.drop (k + 1) :=
        List.drop_eq_getElem_cons hk
      have hgetD : common.getD k ' ' = common[k] := List.getD_eq_getElem common ' ' hk
      have htake : common.take (k + 1) = common.take k ++ [common[k]] := by
        rw [List.take_succ, List.getElem?_eq_getElem hk]
        rfl
      by_cases hch : ch = common.getD k ' '
      · rw [if_pos hch, ih common (k + 1), hdrop]
        simp only [stepGo]
        rw [if_pos (hgetD ▸ hch), htake, List.append_assoc]
        rfl
      · rw [if_neg hch, hdrop]
        simp only [stepGo]
        rw [if_neg (hgetD ▸ hch)]
        simp

/-- When the location is not a proper leading segment of the running
common prefix, the parallel walk computes exactly the longest common
prefix. -/
theorem stepGo_eq_specLcp : ∀ r common : List Char,
    ¬ strictLead r common → stepGo common r = specLcp common r := by
  intro r
  induction r with
  | nil =>
    intro common h
    cases common with
    | nil => rfl
    | cons c cs => exact absurd ⟨rfl, by simp⟩ h
  | cons x xs ih =>
    intro common h
    cases common with
    | nil => rfl
    | cons c cs =>
      simp only [stepGo, specLcp]
      by_cases hxc : x = c
      · subst hxc
        rw [if_pos rfl, if_pos rfl]
        refine congrArg (x :: ·) (ih cs ?_)
        rintro ⟨hs, hl⟩
        refine h ⟨?_, ?_⟩
        · simp [startsW, hs]
        · simpa using Nat.succ_lt_succ hl
      · rw [if_neg hxc, if_neg (fun hh => hxc hh.symm)]

/-- Spec-side: the longest common prefix of all the records' trimmed
locations, folded from the first record's trimmed location. -/
def specLcpAll (r₀ : Record) (rs : List Record) : List Char :=
  rs.foldl (fun acc record => specLcp acc (pyStrip record.Location).toList)
    (pyStrip r₀.Location).toList

/-- Folding the common prefix from an empty accumulator stays empty. -/
theorem foldl_specLcp_nil :
    ∀ rs : List Record,
      rs.foldl (fun acc record => specLcp acc (pyStrip record.Location).toList) [] = [] := by
  intro rs
  induction rs with
  | nil => rfl
  | cons r rest ih =>
    simp only [List.foldl_cons]
    have h0 : specLcp [] (pyStrip r.Location).toList = [] := by
      cases (pyStrip r.Location).toList <;> rfl
    rw [h0, ih]

/-- The folded common prefix leads the accumulator it started from. -/
theorem foldl_specLcp_startsW_acc :
    ∀ (rs : List Record) (acc : List Char),
      startsW
        (rs.foldl (fun acc record => specLcp acc (pyStrip record.Location).toList) acc)
        acc = true := by
  intro rs
  induction rs with
  | nil => intro acc; exact startsW_refl acc
  | cons r rest ih =>
    intro acc
    simp only [List.foldl_cons]
    exact startsW_trans _ _ _ (ih (specLcp acc (pyStrip r.Location).toList))
      (specLcp_startsW_left acc (pyStrip r.Location).toList)

/-- The folded common prefix leads every folded-in trimmed location. -/
theorem foldl_specLcp_startsW_mem :
    ∀ (rs : List Record) (acc : List Char) (r : Record), r ∈ rs →
      startsW
        (rs.foldl (fun acc record => specLcp acc (pyStrip record.Location).toList) acc)
        (pyStrip r.Location).toList = true := by
  intro rs
  induction rs with
  | nil => intro acc r h; exact absurd h (List.not_mem_nil r)
  | cons r2 rest ih =>
    intro acc r h
    simp only [List.foldl_cons]
    rcases List.mem_cons.mp h with rfl | hrest
    · exact startsW_trans _ _ _
        (foldl_specLcp_startsW_acc rest (specLcp acc (pyStrip r.Location).toList))
        (specLcp_startsW_right acc (pyStrip r.Location).toList)
    · exact ih (specLcp acc (pyStrip r2.Location).toList) r hrest

/-- When no record's trimmed location is a proper leading segment of
the base, the source's common-prefix loop computes the fold of the
longest-common-prefix operation. -/
theorem foldCommon_eq_foldl (c₀ : List Char) :
    ∀ (rs : List Record) (c : List Char),
      startsW c c₀ = true →
      (∀ r ∈ rs, ¬ strictLead (pyStrip r.Location).toList c₀) →
      foldCommon c rs =
        rs.foldl (fun acc record => specLcp acc (pyStrip record.Location).toList) c := by
  intro rs
  induction rs with
  | nil => intro c _ _; rfl
  | cons r rest ih =>
    intro c hlead hall
    simp only [foldCommon, List.foldl_cons]
    have hstep : innerLoop c (pyStrip r.Location).toList 0 =
        specLcp c (pyStrip r.Location).toList := by
      rw [innerLoop_eq_stepGo]
      simp only [List.take_zero, List.drop_zero, List.nil_append]
      apply stepGo_eq_specLcp
      rintro ⟨hs, hl⟩
      refine hall r (List.mem_cons_self r rest) ⟨startsW_trans _ _ _ hs hlead, ?_⟩
      exact Nat.lt_of_lt_of_le hl (startsW_length c c₀ hlead)
    rw [hstep]
    by_cases hempty : (specLcp c (pyStrip r.Location).toList).isEmpty
    · rw [if_pos hempty]
      have hnil : specLcp c (pyStrip r.Location).toList = [] := by simpa using hempty
      rw [hnil]
      exact (foldl_specLcp_nil rest).symm
    · rw [if_neg hempty]
      refine ih (specLcp c (pyStrip r.Location).toList)
        (startsW_trans _ _ _ (specLcp_startsW_left c _) hlead) ?_
      intro r2 hr2
      exact hall r2 (List.mem_cons_of_mem r hr2)

/-- Two records whose locations are `abc` and `ab` — the second a proper
leading segment of the first. -/
def c3rec1 : Record :=
  { Tool := "t", Location := "abc", Line := .s "1", Severity := "error", Code := "c" }

/-- See `c3rec1`. -/
def c3rec2 : Record :=
  { Tool := "t", Location := "ab", Line := .s "1", Severity := "error", Code := "c" }

/-- claim C3 (counterexample): on records with locations `abc` and
`ab`, the code's autotrim candidate is `ABC` (the inner loop never
truncates when a record's location is a proper leading segment of the
running common prefix — and the stored candidate is uppercased), while
the longest common character-by-character prefix of the trimmed
locations is `ab`; the candidate is not a prefix of the second record's
location even case-insensitively. -/
theorem C3_autotrim_lcp_cex :
    autotrimCandidate [c3rec1, c3rec2] = some "ABC" ∧
    specLcp "abc".toList "ab".toList = "ab".toList ∧
    autotrimCandidate [c3rec1, c3rec2] ≠
      some (String.mk (specLcp (pyStrip c3rec1.Location).toList (pyStrip c3rec2.Location).toList)) ∧
    autotrimCandidate [c3rec1, c3rec2] ≠
      some (pyUpper (String.mk (specLcp (pyStrip c3rec1.Location).toList (pyStrip c3rec2.Location).toList))) ∧
    startsW "ABC".toList (pyUpper c3rec2.Location).toList = false := by
  exact ⟨rfl, rfl, by decide, by decide, rfl⟩

/-- claim C3 (amended): for two or more records, provided no record's
trimmed location is a proper leading segment of the first record's
trimmed location, the autotrim candidate is the uppercase of the longest
common character-by-character prefix of all the records' trimmed
locations (`none` when that prefix is empty), and that common prefix is
a prefix of every record's trimmed location. -/
theorem C3_autotrim_lcp_amended (r₀ : Record) (rs : List Record)
    (hne : rs ≠ [])
    (hnp : ∀ r ∈ r₀ :: rs,
      ¬ strictLead (pyStrip r.Location).toList (pyStrip r₀.Location).toList) :
    autotrimCandidate (r₀ :: rs) =
      (if specLcpAll r₀ rs = [] then none else some (pyUpper (String.mk (specLcpAll r₀ rs)))) ∧
    ∀ r ∈ r₀ :: rs, startsW (specLcpAll r₀ rs) (pyStrip r.Location).toList = true := by
  have hfold : foldCommon (pyStrip r₀.Location).toList rs = specLcpAll r₀ rs := by
    refine foldCommon_eq_foldl (pyStrip r₀.Location).toList rs (pyStrip r₀.Location).toList
      (startsW_refl _) ?_
    intro r hr
    exact hnp r (List.mem_cons_of_mem r₀ hr)
  constructor
  · simp only [autotrimCandidate]
    rw [if_neg (by simpa using hne)]
    rw [hfold]
    by_cases hnil : specLcpAll r₀ rs = []
    · rw [if_pos hnil]
      simp [hnil]
    · rw [if_neg hnil]
      simp [List.isEmpty_iff, hnil]
  · intro r hr
    rcases List.mem_cons.mp hr with rfl | hrs
    · exact foldl_specLcp_startsW_acc rs (pyStrip r.Location).toList
    · exact foldl_specLcp_startsW_mem rs (pyStrip r₀.Location).toList r hrs

/-- See the witness below: two records under a shared `/src/` prefix. -/
def c3w1 : Record :=
  { Tool := "t", Location := "/src/a.py", Line := .s "1", Severity := "error", Code := "c" }

/-- See `c3w1`. -/
def c3w2 : Record :=
  { Tool := "t", Location := "/src/b.py", Line := .s "1", Severity := "error", Code := "c" }

/-- Witness for C3's amended theorem at a concrete input. -/
theorem C3_autotrim_lcp_amended_witness :
    autotrimCandidate [c3w1, c3w2] = some "/SRC/" := by
  have h := (C3_autotrim_lcp_amended c3w1 [c3w2] (by decide) (by decide)).1
  rw [h]
  decide

/-- A file with no runs (falsy). -/
def c1empty : SarifFileM := { file_name := "empty.sarif", runs := [] }

/-- A file with one run (truthy). -/
def c1full : SarifFileM := { file_name := "full.sarif", runs := [c2run] }

/-- A set with one direct empty file: `__len__` skips it, iteration
yields it. -/
def c1cexA : SarifFileSet := .mk [] [c1empty]

/-- A set whose file sits two subdirectory levels down: `__len__` counts
it recursively, iteration never descends past the first level. -/
def c1cexB : SarifFileSet := .mk [.mk [.mk [] [c1full]] []] []

/-- claim C1 (counterexample): `__len__` and iteration disagree, in both
directions — a direct file with no runs is iterated but not counted, and
a file nested two subdirectory levels deep is counted but not iterated
(`__iter__`/`__getitem__` visit only each subdirectory's direct files,
while `__len__` recurses and filters out falsy files). -/
theorem C1_flattening_cex :
    (fsIter c1cexA).length ≠ fsLen c1cexA ∧
    (fsIter c1cexB).length ≠ fsLen c1cexB := by
  constructor
  · have h1 : (fsIter c1cexA).length = 1 := rfl
    have h2 : fsLen c1cexA = 0 := by
      simp [c1cexA, fsLen, fsLenList, fileBool, c1empty]
    omega
  · have h1 : (fsIter c1cexB).length = 0 := rfl
    have h2 : fsLen c1cexB = 1 := by
      simp [c1cexB, fsLen, fsLenList, fileBool, c1full]
    omega

/-- When every subdirectory is flat and all its files truthy, `__len__`
counts each subdirectory's direct files. -/
theorem fsLenList_flat :
    ∀ subdirs : List SarifFileSet,
      (∀ d ∈ subdirs, d.subdirs = []) →
      (∀ d ∈ subdirs, ∀ f ∈ d.files, fileBool f = true) →
      fsLenList subdirs = ((subdirs.map (·.files)).flatten).length := by
  intro subdirs
  induction subdirs with
  | nil => intro _ _; rfl
  | cons d ds ih =>
    intro h1 h2
    have hd : fsLen d = d.files.length := by
      cases d with
      | mk dsub dfiles =>
        have hsub : dsub = [] := by
          simpa [SarifFileSet.subdirs] using h1 (.mk dsub dfiles) (List.mem_cons_self _ _)
        subst hsub
        have hfil : dfiles.filter fileBool = dfiles := by
          refine List.filter_eq_self.mpr ?_
          intro f hf
          exact h2 (.mk [] dfiles) (List.mem_cons_self _ _) f
            (by simpa [SarifFileSet.files] using hf)
        simp [fsLen, fsLenList, hfil, SarifFileSet.files]
    have hds := ih (fun d2 hd2 => h1 d2 (List.mem_cons_of_mem d hd2))
      (fun d2 hd2 => h2 d2 (List.mem_cons_of_mem d hd2))
    simp [fsLenList, hd, hds]

/-- claim C1 (amended): when every subdirectory of the set has no nested
subdirectories and every file in the tree is non-empty (has at least one
run), `__len__`, iteration and indexed access agree on the single
flattening — each subdirectory's files in insertion order, then the
direct files in insertion order. -/
theorem C1_flattening_amended (subdirs : List SarifFileSet) (files : List SarifFileM)
    (h1 : ∀ d ∈ subdirs, d.subdirs = [])
    (h2 : ∀ d ∈ subdirs, ∀ f ∈ d.files, fileBool f = true)
    (h3 : ∀ f ∈ files, fileBool f = true) :
    fsLen (.mk subdirs files) = (fsIter (.mk subdirs files)).length ∧
    ∀ i : Nat, i < fsLen (.mk subdirs files) →
      fsGet (.mk subdirs files) i = (fsIter (.mk subdirs files))[i]? := by
  have hiter : fsIter (.mk subdirs files) = (subdirs.map (·.files)).flatten ++ files := rfl
  have hfil : files.filter fileBool = files := List.filter_eq_self.mpr h3
  have hlen : fsLen (.mk subdirs files) =
      ((subdirs.map (·.files)).flatten).length + files.length := by
    simp [fsLen, fsLenList_flat subdirs h1 h2, hfil]
  constructor
  · rw [hlen, hiter]
    simp
  · intro i hi
    simp only [fsGet, SarifFileSet.subdirs]
    cases hin : ((subdirs.map (·.files)).flatten)[i]? with
    | some f =>
      have hlt : i < ((subdirs.map (·.files)).flatten).length := by
        by_contra hge
        rw [List.getElem?_eq_none (by omega)] at hin
        simp at hin
      rw [hiter, List.getElem?_append, if_pos hlt, hin]
    | none =>
      have hge : ((subdirs.map (·.files)).flatten).length ≤ i := by
        by_contra hlt
        push_neg at hlt
        rw [List.getElem?_eq_getElem hlt] at hin
        simp at hin
      rw [hiter, List.getElem?_append, if_neg (by omega)]
      rfl

/-- A flat subdirectory holding one truthy file. -/
def c1wsub : SarifFileSet := .mk [] [c1full]

/-- Witness for C1's amended theorem at a concrete input: one flat
subdirectory with a truthy file plus one truthy direct file. -/
theorem C1_flattening_amended_witness :
    fsLen (.mk [c1wsub] [c1full]) = (fsIter (.mk [c1wsub] [c1full])).length :=
  (C1_flattening_amended [c1wsub] [c1full]
    (by intro d hd; rcases List.mem_singleton.mp hd with rfl; rfl)
    (by
      intro d hd
      rcases List.mem_singleton.mp hd with rfl
      intro f hf
      rcases List.mem_singleton.mp hf with rfl
      rfl)
    (by
      intro f hf
      rcases List.mem_singleton.mp hf with rfl
      rfl)).1
